import Mathlib

/-!
Verification of the signed-decomposition engine, LWE keyswitch key
generation, the trace-packing keyswitch and the CRS entity constructors
of the tfhe-rs core, against a shallow embedding of the Rust source.

Scalars of width `W` bits are embedded as `Nat` reduced modulo `2 ^ W`;
shifts on unsigned integers are embedded as division/multiplication by
powers of two, and `cast_from` truncation as `% 2 ^ W`.
-/

namespace TfheRs

/-- Wrapping addition of two `W`-bit scalars
(`u32/u64::wrapping_add`). -/
def wadd (W a b : Nat) : Nat := (a + b) % 2 ^ W

/-!
## Signed decomposer, native power-of-two modulus

From `core_crypto/commons/math/decomposition/decomposer.rs`.
-/

/-- `SignedDecomposer::closest_representable`
(decomposer.rs lines 101-119).
`non_rep_bit_count = BITS - level_count * base_log`;
`non_rep_msb = (input & (1 << (nr-1))) >> (nr-1)` is the bit `nr-1` of
the input, i.e. `input / 2^(nr-1) % 2`;
`((input >> nr) + msb) << nr` wraps at the scalar width. -/
def closestRepresentable (W b l x : Nat) : Nat :=
  let nr := W - l * b
  let msb := x / 2 ^ (nr - 1) % 2
  (x / 2 ^ nr + msb) * 2 ^ nr % 2 ^ W

/-- `DecompositionTerm::to_recomposition_summand`
(term.rs lines 56-59): `value << (BITS - base_log * level)`,
wrapping at the scalar width. -/
def toRecompositionSummand (W b level val : Nat) : Nat :=
  val * 2 ^ (W - b * level) % 2 ^ W

/-- Modelled from the spec: one digit-extraction step of the signed
decomposition (the `SignedDecompositionIter` internals are not under
`src/`).  The spec (§4.1) asks for signed digits of magnitude at most
`B/2`; we take the residue `r = s % B`, carry into the next state when
`r > B/2`, and return the digit in its two's-complement scalar
representation `(r - carry*B) mod 2^W` together with the next state. -/
def decomposeOneLevel (b W s : Nat) : Nat × Nat :=
  let B := 2 ^ b
  let r := s % B
  let c := if B / 2 < r then 1 else 0
  ((r + (2 ^ W - c * B)) % 2 ^ W, s / B + c)

/-- Modelled from the spec: the state of `SignedDecompositionIter`
(not under `src/`): remaining levels, the running state holding the
not-yet-extracted digits, and a freshness flag cleared by the first
`next()`. -/
structure SignedDecompositionIter where
  base_log : Nat
  level_count : Nat
  width : Nat
  state : Nat
  current_level : Nat
  fresh : Bool
  deriving Repr, DecidableEq

/-- `SignedDecomposer::decompose` (decomposer.rs lines 147-155): rounds
the input with `closest_representable` and hands it to a fresh iterator.
Modelled from the spec: the iterator keeps the representable bits
`input >> (W - l*b)` as its state. -/
def decompose (W b l x : Nat) : SignedDecompositionIter :=
  { base_log := b
    level_count := l
    width := W
    state := closestRepresentable W b l x / 2 ^ (W - l * b)
    current_level := l
    fresh := true }

/-- Modelled from the spec: `SignedDecompositionIter::next` — yields
the term of level `current_level` (levels run from `l` down to 1) and
clears the freshness flag; an exhausted iterator is unchanged. -/
def advance (it : SignedDecompositionIter) :
    Option (Nat × Nat) × SignedDecompositionIter :=
  match it.current_level with
  | 0 => (none, it)
  | Nat.succ c =>
    let p := decomposeOneLevel it.base_log it.width it.state
    (some (c + 1, p.1),
      { it with state := p.2, current_level := c, fresh := false })

/-- `n` calls of `next()` on an iterator. -/
def consumeN (n : Nat) (it : SignedDecompositionIter) :
    SignedDecompositionIter :=
  match n with
  | 0 => it
  | Nat.succ m => consumeN m (advance it).2

/-- The fold performed by `SignedDecomposer::recompose`
(decomposer.rs lines 176-178): starting from `acc`, wrapping-add the
recomposition summand of every remaining term. -/
def foldSummands (W b c s acc : Nat) : Nat :=
  match c with
  | 0 => acc
  | Nat.succ c' =>
    let p := decomposeOneLevel b W s
    foldSummands W b c' p.2
      (wadd W acc (toRecompositionSummand W b (c' + 1) p.1))

/-- `SignedDecomposer::recompose` (decomposer.rs lines 174-182):
`None` unless the iterator is fresh, otherwise the wrapping sum of all
recomposition summands. -/
def recompose (it : SignedDecompositionIter) : Option Nat :=
  if it.fresh then
    some (foldSummands it.width it.base_log it.current_level it.state 0)
  else none

/-- The list of terms `(level, value)` a fresh run of the iterator
yields, most significant level first. -/
def termsList (W b c s : Nat) : List (Nat × Nat) :=
  match c with
  | 0 => []
  | Nat.succ c' =>
    let p := decomposeOneLevel b W s
    (c' + 1, p.1) :: termsList W b c' p.2

/-!
## Signed decomposer, non-native (custom) modulus

From `decomposer.rs` lines 189-449 and `term.rs` lines 103-220.
-/

/-- Modelled from the spec: `divide_round_to_u128`
(`algorithms/misc.rs`, not under `src/`) — rounds the quotient to the
nearest integer, i.e. `round(n / d)`. -/
def divideRound (n d : Nat) : Nat := (n + d / 2) / d

/-- `SignedDecomposerNonNative::closest_representable`
(decomposer.rs lines 305-360, the live "floored approach"):
`sr = floor(q / B^l)`, `rounded = round(input / sr)`, result
`rounded * sr` truncated back to the scalar width by
`Scalar::cast_from`. -/
def closestRepresentableNN (W b l q x : Nat) : Nat :=
  let sr := q / 2 ^ (b * l)
  divideRound x sr * sr % 2 ^ W

/-- `DecompositionTermNonNative::to_recomposition_summand`
(term.rs lines 155-174):
`value * B^(level_count - level) * round(q / B^level_count)` computed
in `u128` and truncated to the scalar width by `Scalar::cast_from`. -/
def toRecompositionSummandNN (W b lc q level val : Nat) : Nat :=
  let unit := divideRound q (2 ^ (b * lc))
  val * 2 ^ (b * (lc - level)) * unit % 2 ^ W

/-- Modelled from the spec: the state of
`SignedDecompositionIterNonNative` (not under `src/`). -/
structure SignedDecompositionIterNonNative where
  base_log : Nat
  level_count : Nat
  width : Nat
  modulus : Nat
  state : Nat
  current_level : Nat
  fresh : Bool
  deriving Repr, DecidableEq

/-- `SignedDecomposerNonNative::decompose`
(decomposer.rs lines 395-404): rounds the input with
`closest_representable` and hands it to a fresh iterator.  Modelled
from the spec: the iterator state is the index of the representable
multiple, `closest / floor(q / B^l)`, whose balanced base-`B` digits
the iterator yields (levels `l` down to 1). -/
def decomposeNN (W b l q x : Nat) : SignedDecompositionIterNonNative :=
  { base_log := b
    level_count := l
    width := W
    modulus := q
    state := closestRepresentableNN W b l q x / (q / 2 ^ (b * l))
    current_level := l
    fresh := true }

/-- Modelled from the spec: `SignedDecompositionIterNonNative::next`,
sharing the digit-extraction step with the native iterator. -/
def advanceNN (it : SignedDecompositionIterNonNative) :
    Option (Nat × Nat) × SignedDecompositionIterNonNative :=
  match it.current_level with
  | 0 => (none, it)
  | Nat.succ c =>
    let p := decomposeOneLevel it.base_log it.width it.state
    (some (c + 1, p.1),
      { it with state := p.2, current_level := c, fresh := false })

/-- `n` calls of `next()` on a non-native iterator. -/
def consumeNNN (n : Nat) (it : SignedDecompositionIterNonNative) :
    SignedDecompositionIterNonNative :=
  match n with
  | 0 => it
  | Nat.succ m => consumeNNN m (advanceNN it).2

/-- The fold performed by `SignedDecomposerNonNative::recompose`
(decomposer.rs lines 435-437). -/
def foldSummandsNN (W b lc q c s acc : Nat) : Nat :=
  match c with
  | 0 => acc
  | Nat.succ c' =>
    let p := decomposeOneLevel b W s
    foldSummandsNN W b lc q c' p.2
      (wadd W acc (toRecompositionSummandNN W b lc q (c' + 1) p.1))

/-- `SignedDecomposerNonNative::recompose`
(decomposer.rs lines 433-448). -/
def recomposeNN (it : SignedDecompositionIterNonNative) : Option Nat :=
  if it.fresh then
    some (foldSummandsNN it.width it.base_log it.level_count it.modulus
      it.current_level it.state 0)
  else none

/-- The final carry state after extracting `c` digits from state `s`. -/
def stateAfter (b W c s : Nat) : Nat :=
  match c with
  | 0 => s
  | Nat.succ c' => stateAfter b W c' (decomposeOneLevel b W s).2

/-- The multiple of `step` nearest to `x`, ties rounded upward, wrapped
at the scalar width — the description of `closest_representable` given
by the spec (§4.1), stated independently of the source's bit fiddling. -/
def nearestMultipleTiesUp (W step x : Nat) : Nat :=
  (x + step / 2) / step * step % 2 ^ W

/-!
## CRS entity constructors

From `core_crypto/entities/crs_lwe_ciphertext.rs` and
`crs_glwe_ciphertext.rs`.  A failed `assert!` aborts the process; the
constructors are embedded as `Option`-returning functions where `none`
is the abort.
-/

/-- The `CRSLweBody` entity: a container plus its modulus. -/
structure CRSLweBody where
  data : List Nat
  ciphertext_modulus : Nat
  deriving Repr, DecidableEq

/-- `CRSLweBody::from_container` (crs_lwe_ciphertext.rs lines 40-45):
wraps the container with no assertion at all. -/
def crsLweBodyFromContainer (container : List Nat) (q : Nat) :
    Option CRSLweBody :=
  some { data := container, ciphertext_modulus := q }

/-- The `CRSLweMask` entity: a container plus its modulus. -/
structure CRSLweMask where
  data : List Nat
  ciphertext_modulus : Nat
  deriving Repr, DecidableEq

/-- `CRSLweMask::from_container` (crs_lwe_ciphertext.rs lines 112-117):
wraps the container with no assertion at all. -/
def crsLweMaskFromContainer (container : List Nat) (q : Nat) :
    Option CRSLweMask :=
  some { data := container, ciphertext_modulus := q }

/-- The `CRSLweCiphertext` entity: container, codimension, modulus. -/
structure CRSLweCiphertext where
  data : List Nat
  codim : Nat
  ciphertext_modulus : Nat
  deriving Repr, DecidableEq

/-- `CRSLweCiphertext::from_container`
(crs_lwe_ciphertext.rs lines 276-290): asserts only that the container
is non-empty. -/
def crsLweCiphertextFromContainer (container : List Nat) (q cod : Nat) :
    Option CRSLweCiphertext :=
  if 0 < container.length then
    some { data := container, codim := cod, ciphertext_modulus := q }
  else none

/-- The `CRSGlweCiphertext` entity: container, codimension, polynomial
size, modulus. -/
structure CRSGlweCiphertext where
  data : List Nat
  codim : Nat
  polynomial_size : Nat
  ciphertext_modulus : Nat
  deriving Repr, DecidableEq

/-- `CRSGlweCiphertext::from_container`
(crs_glwe_ciphertext.rs lines 394-418): asserts that the container is
non-empty and that its length is divisible by the polynomial size; the
codimension is stored unchecked. -/
def crsGlweCiphertextFromContainer (container : List Nat)
    (polynomial_size q cod : Nat) : Option CRSGlweCiphertext :=
  if 0 < container.length then
    if container.length % polynomial_size = 0 then
      some
        { data := container
          codim := cod
          polynomial_size := polynomial_size
          ciphertext_modulus := q }
    else none
  else none

/-!
## LWE keyswitch key generation

From `core_crypto/algorithms/lwe_keyswitch_key_generation.rs`.  The
encryption and randomness primitives (`encrypt_lwe_ciphertext_list`,
`EncryptionRandomGenerator`, seeded encryption, decompression) are not
under `src/` and are modelled from the spec (§2, §4.2, §4.3): the
encryption generator is a pair of deterministic scalar streams derived
from the mask seed and from the noise seeder, each consumed in order,
and the seeded key stores bodies only and regenerates the masks from
the mask stream.
-/

/-- Modelled from the spec: the `n` uniform mask coefficients of one
LWE encryption, drawn from the mask stream at counter `mc`. -/
def lweMask (W : Nat) (maskS : Nat → Nat) (mc n : Nat) : List Nat :=
  (List.range n).map (fun k => maskS (mc + k) % 2 ^ W)

/-- Modelled from the spec: the body of one LWE encryption of `pt`
under `key`: `⟨mask, key⟩ + pt + noise`, wrapping. -/
def lweBody (W : Nat) (key : List Nat) (maskS noiseS : Nat → Nat)
    (mc nc pt : Nat) : Nat :=
  let mask := lweMask W maskS mc key.length
  let dot := (List.zipWith (fun a s => a * s) mask key).sum
  (dot + pt + noiseS nc % 2 ^ W) % 2 ^ W

/-- Modelled from the spec: one LWE encryption, `mask ++ [body]`. -/
def lweEncrypt (W : Nat) (key : List Nat) (maskS noiseS : Nat → Nat)
    (mc nc pt : Nat) : List Nat :=
  lweMask W maskS mc key.length ++ [lweBody W key maskS noiseS mc nc pt]

/-- Modelled from the spec: LWE decryption — copy the body and
subtract the mask/key dot product, wrapping. -/
def lweDecrypt (W : Nat) (key ct : List Nat) : Nat :=
  let mask := ct.take key.length
  let dot := (List.zipWith (fun a s => a * s) mask key).sum
  (ct.getLastD 0 + (2 ^ W - dot % 2 ^ W)) % 2 ^ W

/-- Modelled from the spec: `encrypt_lwe_ciphertext_list` — encrypt the
plaintexts in order, advancing the mask stream by `key.length` and the
noise stream by one per ciphertext. -/
def encryptLweList (W : Nat) (key : List Nat) (maskS noiseS : Nat → Nat) :
    List Nat → Nat → Nat → List (List Nat)
  | [], _, _ => []
  | pt :: rest, mc, nc =>
    lweEncrypt W key maskS noiseS mc nc pt ::
      encryptLweList W key maskS noiseS rest (mc + key.length) (nc + 1)

/-- The plaintext buffer filled for one input key element by
`generate_lwe_keyswitch_key` (lwe_keyswitch_key_generation.rs lines
100-107): the entry for level `j` (j = 1..level_count) is
`DecompositionTerm::new(j, base_log, elem).to_recomposition_summand()`. -/
def kskPlaintexts (W b l elem : Nat) : List Nat :=
  (List.range l).map (fun j0 => toRecompositionSummand W b (j0 + 1) elem)

/-- The block loop of `generate_lwe_keyswitch_key` (lines 94-116): one
block of `level_count` fresh LWE ciphertexts under the output key per
input key element, threading a single encryption generator. -/
def genKskBlocks (W b l : Nat) (outKey : List Nat)
    (maskS noiseS : Nat → Nat) :
    List Nat → Nat → Nat → List (List (List Nat))
  | [], _, _ => []
  | elem :: rest, mc, nc =>
    encryptLweList W outKey maskS noiseS (kskPlaintexts W b l elem)
        mc nc ::
      genKskBlocks W b l outKey maskS noiseS rest
        (mc + l * outKey.length) (nc + l)

/-- `generate_lwe_keyswitch_key` (lines 59-117): asserts that the
destination key's declared input/output dimensions equal the secret
keys' dimensions (lines 72-85), then fills the blocks. -/
def generateLweKeyswitchKey (W b l declIn declOut : Nat)
    (inKey outKey : List Nat) (maskS noiseS : Nat → Nat) :
    Option (List (List (List Nat))) :=
  if declIn = inKey.length ∧ declOut = outKey.length then
    some (genKskBlocks W b l outKey maskS noiseS inKey 0 0)
  else none

/-- Modelled from the spec: seeded LWE ciphertext-list encryption
(`encrypt_seeded_lwe_ciphertext_list_with_existing_generator`) — the
mask is drawn from the same mask stream, but only the body is stored,
so the streams advance exactly as in the direct encryption. -/
def encryptSeededList (W : Nat) (key : List Nat)
    (maskS noiseS : Nat → Nat) : List Nat → Nat → Nat → List Nat
  | [], _, _ => []
  | pt :: rest, mc, nc =>
    lweBody W key maskS noiseS mc nc pt ::
      encryptSeededList W key maskS noiseS rest (mc + key.length) (nc + 1)

/-- The block loop of `generate_seeded_lwe_keyswitch_key`
(lwe_keyswitch_key_generation.rs lines 251-273). -/
def genSeededKskBlocks (W b l : Nat) (outKey : List Nat)
    (maskS noiseS : Nat → Nat) : List Nat → Nat → Nat → List (List Nat)
  | [], _, _ => []
  | elem :: rest, mc, nc =>
    encryptSeededList W outKey maskS noiseS (kskPlaintexts W b l elem)
        mc nc ::
      genSeededKskBlocks W b l outKey maskS noiseS rest
        (mc + l * outKey.length) (nc + l)

/-- `generate_seeded_lwe_keyswitch_key` (lines 204-274): same
assertions (lines 224-237), builds its own generator from the stored
compression seed and the noise seeder — the same seed material as the
direct generator in claim C3 — then fills the compressed blocks. -/
def generateSeededLweKeyswitchKey (W b l declIn declOut : Nat)
    (inKey outKey : List Nat) (maskS noiseS : Nat → Nat) :
    Option (List (List Nat)) :=
  if declIn = inKey.length ∧ declOut = outKey.length then
    some (genSeededKskBlocks W b l outKey maskS noiseS inKey 0 0)
  else none

/-- Modelled from the spec: decompression of one seeded block —
regenerate each mask from the mask stream and reattach the stored
body. -/
def decompressBlock (W n : Nat) (maskS : Nat → Nat) :
    List Nat → Nat → List (List Nat)
  | [], _ => []
  | body :: rest, mc =>
    (lweMask W maskS mc n ++ [body]) ::
      decompressBlock W n maskS rest (mc + n)

/-- Modelled from the spec: decompression of all seeded blocks in
order, with a fresh mask stream counter. -/
def decompressBlocks (W n : Nat) (maskS : Nat → Nat) :
    List (List Nat) → Nat → List (List (List Nat))
  | [], _ => []
  | blk :: rest, mc =>
    decompressBlock W n maskS blk mc ::
      decompressBlocks W n maskS rest (mc + blk.length * n)

/-- Modelled from the spec:
`SeededLweKeyswitchKey::decompress_into_lwe_keyswitch_key`. -/
def decompressSeededLweKeyswitchKey (W n : Nat) (maskS : Nat → Nat)
    (k : Option (List (List Nat))) : Option (List (List (List Nat))) :=
  k.map (fun blocks => decompressBlocks W n maskS blocks 0)

/-!
## Trace-packing keyswitch

From `core_crypto/algorithms/lwe_trace_packing_keyswitch.rs`.  A
polynomial is a `List Nat` of its `N` coefficients and a GLWE ciphertext
a `List` of `glwe_size` polynomials.  The polynomial primitives
(`polynomial_algorithms.rs`) and `keyswitch_glwe_ciphertext`
(`glwe_keyswitch.rs`) are not under `src/`: pointwise additions,
subtractions and scalar multiplications are modelled from the spec as
coefficientwise modular operations, while the monic-monomial rotation,
the ring automorphism and the stage-`l` GLWE keyswitch are kept as
abstract function parameters `rot`, `auto`, `ks` shared between the
embedding of the code and the statement of the claims.

Rust's `iter_mut().zip(other)` in-place update pattern (which updates
the first `min` elements and keeps the tail of the mutated buffer) is
embedded as `zipUpdate`.
-/

/-- In-place `iter_mut().zip(upd)` update: apply `f` to the first
`min` positions, keep the rest of `base`. -/
def zipUpdate {α β : Type} (f : α → β → α) : List α → List β → List α
  | [], _ => []
  | base, [] => base
  | bh :: bt, uh :: ut => f bh uh :: zipUpdate f bt ut

/-- `polynomial_wrapping_add_assign` (native wrapping addition). -/
def polyAddAssignW (W : Nat) (a b : List Nat) : List Nat :=
  zipUpdate (fun x y => (x + y) % 2 ^ W) a b

/-- Modelled from the spec:
`polynomial_wrapping_add_assign_custom_mod`. -/
def polyAddAssignQ (q : Nat) (a b : List Nat) : List Nat :=
  zipUpdate (fun x y => (x + y) % q) a b

/-- Modelled from the spec:
`polynomial_wrapping_sub_assign_custom_mod`. -/
def polySubAssignQ (q : Nat) (a b : List Nat) : List Nat :=
  zipUpdate (fun x y => (x + (q - y % q)) % q) a b

/-- Modelled from the spec:
`polynomial_wrapping_scalar_mul_assign_custom_mod`. -/
def polyScalarMulQ (q s : Nat) (a : List Nat) : List Nat :=
  a.map (fun x => x * s % q)

/-- A polynomial of `n` zero coefficients. -/
def zeroPoly (n : Nat) : List Nat := List.replicate n 0

/-- A zeroed GLWE ciphertext of `gs` polynomials of size `n`
(`GlweCiphertext::new(ZERO, ..)`). -/
def freshCt (gs n : Nat) : List (List Nat) :=
  List.replicate gs (zeroPoly n)

/-- `ct.as_ref().iter().any(|&x| x != 0)`, negated. -/
def glweAllZero (ct : List (List Nat)) : Bool :=
  ct.all (fun p => p.all (fun x => x == 0))

/-- Claim-side coefficientwise sum of two GLWE ciphertexts modulo
`q`. -/
def ctAddQ (q : Nat) (c0 c1 : List (List Nat)) : List (List Nat) :=
  List.zipWith (fun p0 p1 =>
    List.zipWith (fun x y => (x + y) % q) p0 p1) c0 c1

/-- Claim-side coefficientwise difference of two GLWE ciphertexts
modulo `q`. -/
def ctSubQ (q : Nat) (c0 c1 : List (List Nat)) : List (List Nat) :=
  List.zipWith (fun p0 p1 =>
    List.zipWith (fun x y => (x + (q - y % q)) % q) p0 p1) c0 c1

/-- The loop body for one slot pair of
`trace_packing_keyswitch_lwe_ciphertext_list_into_glwe_ciphertext`
(lwe_trace_packing_keyswitch.rs lines 236-333): slots `i` and
`j = N/2^(l+1) + i`; skip when both are entirely zero; otherwise rotate
slot `j` in place by the monomial of degree `N/2^(l+1)`, build
`ct_plus`/`ct_minus` in fresh zero ciphertexts (native add of the first
operand, custom-mod add/sub of the second), scale both by the halving
scalar of lines 283-285 — `(Scalar::cast_from(q) + ONE) / TWO`, i.e.
`(q mod 2^W + 1) mod 2^W / 2` in `W`-bit wrapping arithmetic — apply
the automorphism of exponent `2^(l+1)+1` to `ct_minus`, keyswitch it
under stage `l`, zero slot `i` and add `ct_plus + ks_out` into it. -/
def tpPairStep (N W q gs : Nat) (rot auto : Nat → List Nat → List Nat)
    (ks : Nat → List (List Nat) → List (List Nat)) (l i : Nat)
    (slots : List (List (List Nat))) : List (List (List Nat)) :=
  let half := N / 2 ^ (l + 1)
  let j := half + i
  let ct0 := slots.getD i []
  let ct1 := slots.getD j []
  if glweAllZero ct0 && glweAllZero ct1 then slots
  else
    let rot1 := ct1.map (rot half)
    let slots1 := slots.set j rot1
    let ctPlus := zipUpdate
      (fun z pr => polyAddAssignQ q (polyAddAssignW W z pr.1) pr.2)
      (freshCt gs N) (ct0.zip rot1)
    let ctMinus := zipUpdate
      (fun z pr => polySubAssignQ q (polyAddAssignW W z pr.1) pr.2)
      (freshCt gs N) (ct0.zip rot1)
    let inv2 := (q % 2 ^ W + 1) % 2 ^ W / 2
    let ctPlusS := ctPlus.map (polyScalarMulQ q inv2)
    let ctMinusS := ctMinus.map (polyScalarMulQ q inv2)
    let ctMinusA := ctMinusS.map (auto (2 ^ (l + 1) + 1))
    let ksOut := ks l ctMinusA
    let newI := zipUpdate
      (fun z pr => polyAddAssignW W z (polyAddAssignQ q pr.1 pr.2))
      (ct0.map (fun p => p.map (fun _ => 0))) (ctPlusS.zip ksOut)
    slots1.set i newI

/-- One butterfly round (the `i` loop at line 236). -/
def tpRound (N W q gs : Nat) (rot auto : Nat → List Nat → List Nat)
    (ks : Nat → List (List Nat) → List (List Nat)) (l : Nat)
    (slots : List (List (List Nat))) : List (List (List Nat)) :=
  (List.range (N / 2 ^ (l + 1))).foldl
    (fun s i => tpPairStep N W q gs rot auto ks l i s) slots

/-- All `log2(N)` butterfly rounds (the `l` loop at line 235). -/
def tpButterfly (N W q gs : Nat) (rot auto : Nat → List Nat → List Nat)
    (ks : Nat → List (List Nat) → List (List Nat))
    (slots : List (List (List Nat))) : List (List (List Nat)) :=
  (List.range (Nat.log2 N)).foldl
    (fun s l => tpRound N W q gs rot auto ks l s) slots

/-- The scatter of one LWE ciphertext into one slot ciphertext
(lines 204-233): the LWE mask coefficients are custom-mod added into
the flattened mask polynomials at positions below the LWE dimension,
and the LWE body into coefficient 0 of the body polynomial (via a
custom-mod polynomial addition of a monomial). -/
def scatterAdd (N q gs lweDim : Nat) (ct : List (List Nat))
    (lwe : List Nat) : List (List Nat) :=
  let maskPolys := ct.take (gs - 1)
  let bodyPoly := ct.getD (gs - 1) []
  let maskPolys' := maskPolys.enum.map (fun pr =>
    pr.2.enum.map (fun cr =>
      if pr.1 * N + cr.1 < lweDim then
        (cr.2 + lwe.getD (pr.1 * N + cr.1) 0) % q
      else cr.2))
  let polyToAdd := (zeroPoly N).set 0 ((0 + lwe.getLastD 0) % q)
  maskPolys' ++ [polyAddAssignQ q bodyPoly polyToAdd]

/-- The slot construction loop (lines 195-233): `N` zeroed GLWE
ciphertexts; the LWE ciphertext whose index entry equals the slot
number is scattered into that slot. -/
def tpScatter (N q gs lweDim : Nat) (indices : List Nat)
    (lweList : List (List Nat)) : List (List (List Nat)) :=
  (List.range N).map (fun index1 =>
    indices.enum.foldl (fun ct pr =>
      if pr.2 = index1 then
        scatterAdd N q gs lweDim ct (lweList.getD pr.1 [])
      else ct)
      (freshCt gs N))

/-- The final write-back (lines 336-345): the output buffer is
zero-filled and slot 0 is added into it with the native wrapping
polynomial addition. -/
def tpFinalCopy (W : Nat) (outData res : List (List Nat)) :
    List (List Nat) :=
  zipUpdate (fun z p => polyAddAssignW W z p)
    (outData.map (fun p => p.map (fun _ => 0))) res

/-- The trace-packing keyswitch key metadata used by the driver's
assertions (the key's buffer enters only through the abstract stage
keyswitch `ks`). -/
structure LweTracePackingKeyswitchKey where
  input_lwe_size : Nat
  polynomial_size : Nat
  output_glwe_size : Nat
  ciphertext_modulus : Nat
  deriving Repr, DecidableEq

/-- `trace_packing_keyswitch_lwe_ciphertext_list_into_glwe_ciphertext`
(lwe_trace_packing_keyswitch.rs lines 136-346).  The `assert!` chain of
lines 152-186 is the guard (a failure is `none`); the oddness check is
`Scalar::cast_from(custom_modulus) % 2 == 1`, i.e. on the value
truncated to the scalar width.  The body zero-fills the output, builds
the slot list, runs the butterfly and writes slot 0 back. -/
def tracePackingKeyswitch (W : Nat)
    (rot auto : Nat → List Nat → List Nat)
    (ks : Nat → List (List Nat) → List (List Nat))
    (tpksk : LweTracePackingKeyswitchKey) (N gsOut qOut : Nat)
    (outData : List (List Nat)) (lweSize qIn : Nat)
    (lweList : List (List Nat)) (indices : List Nat) :
    Option (List (List Nat)) :=
  if lweList.length ≤ N ∧ lweList.length = indices.length ∧
      lweSize = tpksk.input_lwe_size ∧ (∀ x ∈ indices, x < N) ∧
      N = tpksk.polynomial_size ∧ gsOut = tpksk.output_glwe_size ∧
      qIn = tpksk.ciphertext_modulus ∧ qOut = tpksk.ciphertext_modulus ∧
      qIn % 2 ^ W % 2 = 1 then
    some (tpFinalCopy W outData
      ((tpButterfly N W qOut gsOut rot auto ks
        (tpScatter N qOut gsOut (lweSize - 1) indices lweList)).getD 0 []))
  else none

/-- The claim-side description of one slot pair, from the words of
the spec (§4.3 step 2): rotate the second slot, halve the sum and the
difference by `(q+1)/2` modulo `q`, automorph the difference half by
`X → X^(2^(l+1)+1)`, keyswitch it under stage `l`, fold the result into
slot `i`. -/
def tpPairStepSpec (N q : Nat) (rot auto : Nat → List Nat → List Nat)
    (ks : Nat → List (List Nat) → List (List Nat)) (l i : Nat)
    (slots : List (List (List Nat))) : List (List (List Nat)) :=
  let half := N / 2 ^ (l + 1)
  let j := half + i
  let ct0 := slots.getD i []
  let ct1 := slots.getD j []
  if glweAllZero ct0 && glweAllZero ct1 then slots
  else
    let rot1 := ct1.map (rot half)
    let inv2 := (q + 1) / 2
    let s := (ctAddQ q ct0 rot1).map (polyScalarMulQ q inv2)
    let d := (ctSubQ q ct0 rot1).map (polyScalarMulQ q inv2)
    let dA := d.map (auto (2 ^ (l + 1) + 1))
    let kOut := ks l dA
    ((slots.set j rot1).set i (ctAddQ q s kOut))

/-!
## Theorems
-/

/-- The digit/carry split of one extraction step, seen modulo `2^W`:
unsigned digit plus `B` times the carry is congruent to the residue. -/
theorem decomposeOneLevel_digit_carry (b W s : Nat) (hbW : b ≤ W) :
    ((decomposeOneLevel b W s).1 : ZMod (2 ^ W)) =
      (s % 2 ^ b : Nat) -
        ((if 2 ^ b / 2 < s % 2 ^ b then 1 else 0 : Nat) : ZMod (2 ^ W)) *
          (2 ^ b : Nat) := by
  have hle : (if 2 ^ b / 2 < s % 2 ^ b then 1 else 0) * 2 ^ b ≤ 2 ^ W := by
    split
    · simpa using Nat.pow_le_pow_right (by norm_num) hbW
    · simp
  have h0 : ((2 ^ W : ℕ) : ZMod (2 ^ W)) = 0 := ZMod.natCast_self _
  simp only [decomposeOneLevel]
  rw [ZMod.natCast_mod, Nat.cast_add, Nat.cast_sub hle, h0]
  push_cast
  ring

/-- Telescoping of the native recompose fold: folding the remaining `c`
levels over state `s` adds `s * 2^(W - b*c)` modulo `2^W`. -/
theorem foldSummands_eq (W b : Nat) :
    ∀ c s acc, b * c ≤ W → acc < 2 ^ W →
      foldSummands W b c s acc = (acc + s * 2 ^ (W - b * c)) % 2 ^ W := by
  intro c
  induction c with
  | zero =>
    intro s acc _ hacc
    simp only [foldSummands, Nat.mul_zero, Nat.sub_zero,
      Nat.add_mul_mod_self_right]
    exact (Nat.mod_eq_of_lt hacc).symm
  | succ c ih =>
    intro s acc hc hacc
    have hmul : b * (c + 1) = b * c + b := by ring
    have hbc : b * c ≤ W := by omega
    have hbW : b ≤ W := by omega
    have hn : 0 < 2 ^ W := Nat.pos_pow_of_pos W (by norm_num)
    rw [foldSummands, wadd, ih _ _ hbc (Nat.mod_lt _ hn), Nat.mod_add_mod]
    refine (ZMod.natCast_eq_natCast_iff' _ _ _).mp ?_
    have hs : s % 2 ^ b + 2 ^ b * (s / 2 ^ b) = s := Nat.mod_add_div s _
    have hsc := congrArg (fun t : Nat => (t : ZMod (2 ^ W))) hs
    push_cast at hsc
    have hd := decomposeOneLevel_digit_carry b W s hbW
    have h2 : (decomposeOneLevel b W s).2 =
        s / 2 ^ b + (if 2 ^ b / 2 < s % 2 ^ b then 1 else 0) := rfl
    have hexp : W - b * c = W - b * (c + 1) + b := by omega
    simp only [toRecompositionSummand, hexp]
    push_cast [ZMod.natCast_mod]
    rw [hd, h2]
    push_cast
    rw [pow_add]
    linear_combination ((2 : ZMod (2 ^ W)) ^ (W - b * (c + 1))) * hsc

/-- Telescoping of the non-native recompose fold, in the case where the
extraction of the remaining `c` digits ends with no carry left over. -/
theorem foldSummandsNN_eq (W b lc q : Nat) (hbW : b ≤ W) :
    ∀ c s acc, c ≤ lc → stateAfter b W c s = 0 → acc < 2 ^ W →
      foldSummandsNN W b lc q c s acc =
        (acc + s * 2 ^ (b * (lc - c)) * divideRound q (2 ^ (b * lc)))
          % 2 ^ W := by
  intro c
  induction c with
  | zero =>
    intro s acc _ hst hacc
    simp only [stateAfter] at hst
    subst hst
    simp [foldSummandsNN, Nat.mod_eq_of_lt hacc]
  | succ c ih =>
    intro s acc hc hst hacc
    have hn : 0 < 2 ^ W := Nat.pos_pow_of_pos W (by norm_num)
    have hst' : stateAfter b W c (decomposeOneLevel b W s).2 = 0 := hst
    rw [foldSummandsNN, wadd,
      ih _ _ (Nat.le_of_succ_le hc) hst' (Nat.mod_lt _ hn), Nat.mod_add_mod]
    refine (ZMod.natCast_eq_natCast_iff' _ _ _).mp ?_
    have hs : s % 2 ^ b + 2 ^ b * (s / 2 ^ b) = s := Nat.mod_add_div s _
    have hsc := congrArg (fun t : Nat => (t : ZMod (2 ^ W))) hs
    push_cast at hsc
    have hd := decomposeOneLevel_digit_carry b W s hbW
    have h2 : (decomposeOneLevel b W s).2 =
        s / 2 ^ b + (if 2 ^ b / 2 < s % 2 ^ b then 1 else 0) := rfl
    have hexp : b * (lc - c) = b * (lc - (c + 1)) + b := by
      have : lc - c = lc - (c + 1) + 1 := by omega
      rw [this]; ring
    simp only [toRecompositionSummandNN, hexp]
    push_cast [ZMod.natCast_mod]
    rw [hd, h2]
    push_cast
    rw [pow_add]
    linear_combination ((2 : ZMod (2 ^ W)) ^ (b * (lc - (c + 1))) *
      ((divideRound q (2 ^ (b * lc)) : Nat) : ZMod (2 ^ W))) * hsc

/-- Claim C1, as holding on the code: for the native-modulus
`SignedDecomposer` (with `level_count * base_log` below the scalar
width) recomposing a fresh decomposition returns `Some` of the closest
representable value for every scalar; for `SignedDecomposerNonNative`
the identity holds when `round(q/B^l)` agrees with `floor(q/B^l)`, the
rounded multiple does not overflow the scalar width, and the signed
digit extraction of the multiple index ends without a final carry. -/
theorem recompose_decompose_closest :
    (∀ W b l x, l * b < W →
      recompose (decompose W b l x) =
        some (closestRepresentable W b l x)) ∧
    (∀ W b l q x, b ≤ W → 0 < q / 2 ^ (b * l) →
      divideRound q (2 ^ (b * l)) = q / 2 ^ (b * l) →
      divideRound x (q / 2 ^ (b * l)) * (q / 2 ^ (b * l)) < 2 ^ W →
      stateAfter b W l (divideRound x (q / 2 ^ (b * l))) = 0 →
      recomposeNN (decomposeNN W b l q x) =
        some (closestRepresentableNN W b l q x)) := by
  constructor
  · intro W b l x h
    have hbl : b * l ≤ W := by rw [Nat.mul_comm]; omega
    have hnr : l * b + (W - l * b) = W := by omega
    have hsplit : 2 ^ W = 2 ^ (l * b) * 2 ^ (W - l * b) := by
      rw [← pow_add, hnr]
    have hp : 0 < 2 ^ (W - l * b) := Nat.pos_pow_of_pos _ (by norm_num)
    simp only [recompose, decompose, if_true]
    rw [foldSummands_eq W b l _ 0 hbl (Nat.pos_pow_of_pos W (by norm_num))]
    congr 1
    simp only [closestRepresentable]
    rw [Nat.mul_comm b l]
    set t := x / 2 ^ (W - l * b) + x / 2 ^ (W - l * b - 1) % 2 with ht
    rw [hsplit, Nat.mul_mod_mul_right, Nat.mul_div_cancel _ hp,
      Nat.zero_add]
    have hlt : t % 2 ^ (l * b) * 2 ^ (W - l * b) <
        2 ^ (l * b) * 2 ^ (W - l * b) :=
      Nat.mul_lt_mul_of_lt_of_le (Nat.mod_lt _ (Nat.pos_pow_of_pos _
        (by norm_num))) (Nat.le_refl _) hp
    exact Nat.mod_eq_of_lt hlt
  · intro W b l q x hbW hsr hu htr hst
    simp only [recomposeNN, decomposeNN, if_true]
    have hkey : closestRepresentableNN W b l q x / (q / 2 ^ (b * l)) =
        divideRound x (q / 2 ^ (b * l)) := by
      simp only [closestRepresentableNN]
      rw [Nat.mod_eq_of_lt htr, Nat.mul_div_cancel _ hsr]
    rw [hkey, foldSummandsNN_eq W b l q hbW l _ 0 (Nat.le_refl l) hst
      (Nat.pos_pow_of_pos W (by norm_num))]
    congr 1
    simp only [closestRepresentableNN]
    rw [Nat.sub_self, Nat.mul_zero, pow_zero, Nat.mul_one, Nat.zero_add,
      hu]

/-- Witness for `recompose_decompose_closest` at concrete inputs. -/
theorem recompose_decompose_closest_witness :
    (3 * 2 < 8 ∧
      recompose (decompose 8 2 3 200) =
        some (closestRepresentable 8 2 3 200)) ∧
    (1 ≤ 8 ∧ 0 < 16 / 2 ^ (1 * 2) ∧
      divideRound 16 (2 ^ (1 * 2)) = 16 / 2 ^ (1 * 2) ∧
      divideRound 5 (16 / 2 ^ (1 * 2)) * (16 / 2 ^ (1 * 2)) < 2 ^ 8 ∧
      stateAfter 1 8 2 (divideRound 5 (16 / 2 ^ (1 * 2))) = 0 ∧
      recomposeNN (decomposeNN 8 1 2 16 5) =
        some (closestRepresentableNN 8 1 2 16 5)) :=
  ⟨⟨by decide, recompose_decompose_closest.1 8 2 3 200 (by decide)⟩,
    ⟨by decide, by decide, by decide, by decide, by decide,
      recompose_decompose_closest.2 8 1 2 16 5 (by decide) (by decide)
        (by decide) (by decide) (by decide)⟩⟩

/-- Claim C1 counterexample: for the non-native decomposer with
`q = 11`, `base_log = 1`, `level_count = 2` on a 64-bit scalar, the
input 2 rounds to `closest_representable = 2` but recomposes to 3,
because the recomposition summand uses `round(q/B^l) = 3` while
`closest_representable` uses `floor(q/B^l) = 2`. -/
theorem recompose_decompose_closest_counterexample :
    recomposeNN (decomposeNN 64 1 2 11 2) ≠
      some (closestRepresentableNN 64 1 2 11 2) := by decide

/-- The native `closest_representable` output is a small multiple of
the non-representable stride `2^(W - l*b)`. -/
theorem closestRepresentable_factor (W b l x : Nat) (h : l * b < W) :
    ∃ s, s < 2 ^ (l * b) ∧
      closestRepresentable W b l x = s * 2 ^ (W - l * b) := by
  have hnr : l * b + (W - l * b) = W := by omega
  have hsplit : 2 ^ W = 2 ^ (l * b) * 2 ^ (W - l * b) := by
    rw [← pow_add, hnr]
  refine ⟨(x / 2 ^ (W - l * b) + x / 2 ^ (W - l * b - 1) % 2) %
    2 ^ (l * b), Nat.mod_lt _ (Nat.pos_pow_of_pos _ (by norm_num)), ?_⟩
  simp only [closestRepresentable]
  rw [hsplit, Nat.mul_mod_mul_right]

/-- Claim C6, as holding on the code: `closest_representable` is
idempotent for the native decomposer on every scalar; for the
non-native decomposer it is idempotent whenever the rounded multiple
does not overflow the scalar width (in particular whenever
`q/B^l` is positive and the input is below `q - q/B^l/2`). -/
theorem closest_representable_idempotent :
    (∀ W b l x, l * b < W →
      closestRepresentable W b l (closestRepresentable W b l x) =
        closestRepresentable W b l x) ∧
    (∀ W b l q x, 0 < q / 2 ^ (b * l) →
      divideRound x (q / 2 ^ (b * l)) * (q / 2 ^ (b * l)) < 2 ^ W →
      closestRepresentableNN W b l q
          (closestRepresentableNN W b l q x) =
        closestRepresentableNN W b l q x) := by
  constructor
  · intro W b l x h
    obtain ⟨s, hs, hfac⟩ := closestRepresentable_factor W b l x h
    rw [hfac]
    have hp1 : 0 < 2 ^ (W - l * b - 1) := Nat.pos_pow_of_pos _ (by norm_num)
    have hsplit2 : 2 ^ (W - l * b) = 2 ^ (W - l * b - 1) * 2 := by
      rw [← pow_succ]
      congr 1
      omega
    have hdiv : s * 2 ^ (W - l * b) / 2 ^ (W - l * b) = s :=
      Nat.mul_div_cancel s (Nat.pos_pow_of_pos _ (by norm_num))
    have hmsb : s * 2 ^ (W - l * b) / 2 ^ (W - l * b - 1) % 2 = 0 := by
      have hre : s * 2 ^ (W - l * b) = s * 2 * 2 ^ (W - l * b - 1) := by
        rw [hsplit2]; ring
      rw [hre, Nat.mul_div_cancel _ hp1, Nat.mul_mod_left]
    simp only [closestRepresentable]
    rw [hdiv, hmsb, Nat.add_zero]
    refine Nat.mod_eq_of_lt ?_
    calc s * 2 ^ (W - l * b) < 2 ^ (l * b) * 2 ^ (W - l * b) :=
        Nat.mul_lt_mul_of_lt_of_le hs (Nat.le_refl _)
          (Nat.pos_pow_of_pos _ (by norm_num))
      _ = 2 ^ W := by rw [← pow_add]; congr 1; omega
  · intro W b l q x hsr htr
    have hx : closestRepresentableNN W b l q x =
        divideRound x (q / 2 ^ (b * l)) * (q / 2 ^ (b * l)) :=
      Nat.mod_eq_of_lt htr
    rw [hx]
    have hdr : divideRound
        (divideRound x (q / 2 ^ (b * l)) * (q / 2 ^ (b * l)))
        (q / 2 ^ (b * l)) = divideRound x (q / 2 ^ (b * l)) := by
      generalize divideRound x (q / 2 ^ (b * l)) = k
      generalize hsrd : q / 2 ^ (b * l) = sr at hsr
      simp only [divideRound]
      rw [Nat.mul_comm k sr, Nat.mul_add_div hsr,
        Nat.div_eq_of_lt (Nat.div_lt_self hsr (by norm_num)),
        Nat.add_zero]
    simp only [closestRepresentableNN]
    rw [hdr]
    exact Nat.mod_eq_of_lt htr

/-- Witness for `closest_representable_idempotent` at concrete
inputs. -/
theorem closest_representable_idempotent_witness :
    (3 * 2 < 8 ∧
      closestRepresentable 8 2 3 (closestRepresentable 8 2 3 77) =
        closestRepresentable 8 2 3 77) ∧
    (0 < 41 / 2 ^ (1 * 2) ∧
      divideRound 29 (41 / 2 ^ (1 * 2)) * (41 / 2 ^ (1 * 2)) < 2 ^ 8 ∧
      closestRepresentableNN 8 1 2 41
          (closestRepresentableNN 8 1 2 41 29) =
        closestRepresentableNN 8 1 2 41 29) :=
  ⟨⟨by decide, closest_representable_idempotent.1 8 2 3 77 (by decide)⟩,
    ⟨by decide, by decide,
      closest_representable_idempotent.2 8 1 2 41 29 (by decide)
        (by decide)⟩⟩

/-- Claim C6 counterexample: for the non-native decomposer with
`q = 41`, `base_log = 1`, `level_count = 2` on a 64-bit scalar, the
input `2^64 - 1` maps under `closest_representable` to 4 (the nearest
multiple of 10 is `2^64 + 4`, truncated by the scalar cast), and 4 then
maps to 0, so idempotence fails. -/
theorem closest_representable_idempotent_counterexample :
    closestRepresentableNN 64 1 2 41
        (closestRepresentableNN 64 1 2 41 (2 ^ 64 - 1)) ≠
      closestRepresentableNN 64 1 2 41 (2 ^ 64 - 1) := by decide

/-- Claim C7: the native `closest_representable` rounds to the nearest
multiple of `2^(W - l*b)` (ties upward), wrapping at the scalar
width. -/
theorem closest_representable_nearest_multiple (W b l x : Nat)
    (h : l * b < W) :
    closestRepresentable W b l x =
      nearestMultipleTiesUp W (2 ^ (W - l * b)) x := by
  have hp1 : 0 < 2 ^ (W - l * b - 1) := Nat.pos_pow_of_pos _ (by norm_num)
  have hsplit2 : 2 ^ (W - l * b) = 2 ^ (W - l * b - 1) * 2 := by
    rw [← pow_succ]
    congr 1
    omega
  have hhalf : 2 ^ (W - l * b) / 2 = 2 ^ (W - l * b - 1) := by
    rw [hsplit2, Nat.mul_div_cancel _ (by norm_num)]
  have hkey : (x + 2 ^ (W - l * b - 1)) / 2 ^ (W - l * b) =
      x / 2 ^ (W - l * b) + x / 2 ^ (W - l * b - 1) % 2 := by
    rw [hsplit2, ← Nat.div_div_eq_div_mul, ← Nat.div_div_eq_div_mul,
      Nat.add_div_right x hp1]
    omega
  simp only [closestRepresentable, nearestMultipleTiesUp]
  rw [hhalf, hkey]

/-- Witness for `closest_representable_nearest_multiple`. -/
theorem closest_representable_nearest_multiple_witness :
    3 * 2 < 16 ∧
      closestRepresentable 16 2 3 33333 =
        nearestMultipleTiesUp 16 (2 ^ (16 - 3 * 2)) 33333 :=
  ⟨by decide, closest_representable_nearest_multiple 16 2 3 33333
    (by decide)⟩

/-- Consuming an exhausted native iterator changes nothing. -/
theorem consumeN_of_level_zero :
    ∀ n it, it.current_level = 0 → consumeN n it = it := by
  intro n
  induction n with
  | zero => intro it _; rfl
  | succ m ih =>
    intro it h
    have hadv : advance it = (none, it) := by
      simp only [advance]
      split
      · rfl
      · omega
    simp only [consumeN, hadv]
    exact ih it h

/-- A cleared freshness flag stays cleared under consumption. -/
theorem consumeN_fresh_false :
    ∀ n it, it.fresh = false → (consumeN n it).fresh = false := by
  intro n
  induction n with
  | zero => intro it h; exact h
  | succ m ih =>
    intro it h
    simp only [consumeN]
    refine ih _ ?_
    simp only [advance]
    split
    · exact h
    · rfl

/-- Same for the non-native iterator. -/
theorem consumeNNN_of_level_zero :
    ∀ n it, it.current_level = 0 → consumeNNN n it = it := by
  intro n
  induction n with
  | zero => intro it _; rfl
  | succ m ih =>
    intro it h
    have hadv : advanceNN it = (none, it) := by
      simp only [advanceNN]
      split
      · rfl
      · omega
    simp only [consumeNNN, hadv]
    exact ih it h

/-- Same for the non-native iterator. -/
theorem consumeNNN_fresh_false :
    ∀ n it, it.fresh = false → (consumeNNN n it).fresh = false := by
  intro n
  induction n with
  | zero => intro it h; exact h
  | succ m ih =>
    intro it h
    simp only [consumeNNN]
    refine ih _ ?_
    simp only [advanceNN]
    split
    · exact h
    · rfl

/-- The recompose fold is the wrapping sum of the summands of the
listed terms. -/
theorem foldSummands_eq_termsList (W b : Nat) :
    ∀ c s acc, foldSummands W b c s acc =
      (termsList W b c s).foldl
        (fun a t => wadd W a (toRecompositionSummand W b t.1 t.2)) acc := by
  intro c
  induction c with
  | zero => intro s acc; rfl
  | succ c ih => intro s acc; simp only [foldSummands, termsList,
      List.foldl_cons]; exact ih _ _

/-- Non-native version of `foldSummands_eq_termsList`. -/
theorem foldSummandsNN_eq_termsList (W b lc q : Nat) :
    ∀ c s acc, foldSummandsNN W b lc q c s acc =
      (termsList W b c s).foldl
        (fun a t => wadd W a (toRecompositionSummandNN W b lc q t.1 t.2))
        acc := by
  intro c
  induction c with
  | zero => intro s acc; rfl
  | succ c ih => intro s acc; simp only [foldSummandsNN, termsList,
      List.foldl_cons]; exact ih _ _

/-- Claim C8: `recompose` (native and non-native) returns `None`
exactly when at least one term of the decomposition iterator has
already been consumed, and on a fresh iterator it returns `Some` of
the wrapping sum of all recomposition summands. -/
theorem recompose_fresh_semantics :
    (∀ W b l x n,
      (recompose (consumeN n (decompose W b l x)) = none ↔
        0 < n ∧ 0 < l) ∧
      recompose (decompose W b l x) =
        some ((termsList W b l (decompose W b l x).state).foldl
          (fun a t => wadd W a (toRecompositionSummand W b t.1 t.2)) 0)) ∧
    (∀ W b l q x n,
      (recomposeNN (consumeNNN n (decomposeNN W b l q x)) = none ↔
        0 < n ∧ 0 < l) ∧
      recomposeNN (decomposeNN W b l q x) =
        some ((termsList W b l (decomposeNN W b l q x).state).foldl
          (fun a t =>
            wadd W a (toRecompositionSummandNN W b l q t.1 t.2)) 0)) := by
  constructor
  · intro W b l x n
    constructor
    · match n, l with
      | 0, _ =>
        simp [consumeN, recompose, decompose]
      | Nat.succ m, 0 =>
        rw [consumeN_of_level_zero _ _ (by rfl)]
        simp [recompose, decompose]
      | Nat.succ m, Nat.succ lv =>
        have hfr : (consumeN (m + 1) (decompose W b (lv + 1) x)).fresh =
            false := by
          simp only [consumeN]
          exact consumeN_fresh_false m _ (by rfl)
        simp [recompose, hfr]
    · simp only [recompose, decompose, if_true]
      rw [foldSummands_eq_termsList]
  · intro W b l q x n
    constructor
    · match n, l with
      | 0, _ =>
        simp [consumeNNN, recomposeNN, decomposeNN]
      | Nat.succ m, 0 =>
        rw [consumeNNN_of_level_zero _ _ (by rfl)]
        simp [recomposeNN, decomposeNN]
      | Nat.succ m, Nat.succ lv =>
        have hfr :
            (consumeNNN (m + 1) (decomposeNN W b (lv + 1) q x)).fresh =
            false := by
          simp only [consumeNNN]
          exact consumeNNN_fresh_false m _ (by rfl)
        simp [recomposeNN, hfr]
    · simp only [recomposeNN, decomposeNN, if_true]
      rw [foldSummandsNN_eq_termsList]


/-- Claim C9 counterexample: `CRSLweBody::from_container` accepts an
empty container (it performs no assertion), contradicting the claim
that the body sub-entity constructor rejects empty containers. -/
theorem crs_constructors_counterexample :
    (crsLweBodyFromContainer [] 7).isSome = true := by decide

/-- Claim C9, as holding on the code: `CRSLweCiphertext::from_container`
aborts exactly on an empty container, and
`CRSGlweCiphertext::from_container` aborts exactly when the container
is empty or its length is not divisible by the polynomial size; the
`CRSLweBody` and `CRSLweMask` constructors accept every container
(including the empty one) without any check, and no constructor checks
the stored codimension against the buffer length. -/
theorem crs_constructors_assertions :
    (∀ c q, (crsLweBodyFromContainer c q).isSome = true) ∧
    (∀ c q, (crsLweMaskFromContainer c q).isSome = true) ∧
    (∀ c q cod, (crsLweCiphertextFromContainer c q cod).isSome = true ↔
      c ≠ []) ∧
    (∀ c n q cod,
      (crsGlweCiphertextFromContainer c n q cod).isSome = true ↔
        (c ≠ [] ∧ c.length % n = 0)) := by
  refine ⟨fun c q => rfl, fun c q => rfl, fun c q cod => ?_,
    fun c n q cod => ?_⟩
  · cases c with
    | nil => simp [crsLweCiphertextFromContainer]
    | cons a t => simp [crsLweCiphertextFromContainer]
  · cases c with
    | nil => simp [crsGlweCiphertextFromContainer]
    | cons a t =>
      by_cases hm : (a :: t).length % n = 0
      · simp [crsGlweCiphertextFromContainer, hm]
      · simp [crsGlweCiphertextFromContainer, hm]

/-- Decrypting a modelled LWE encryption recovers the plaintext plus
the injected noise. -/
theorem lweDecrypt_lweEncrypt (W : Nat) (key : List Nat)
    (maskS noiseS : Nat → Nat) (mc nc pt : Nat) :
    lweDecrypt W key (lweEncrypt W key maskS noiseS mc nc pt) =
      (pt + noiseS nc % 2 ^ W) % 2 ^ W := by
  have hn : 0 < 2 ^ W := Nat.pos_pow_of_pos W (by norm_num)
  have hlen : (lweMask W maskS mc key.length).length = key.length := by
    simp [lweMask]
  simp only [lweDecrypt, lweEncrypt]
  rw [List.take_left' hlen, List.getLastD_concat]
  simp only [lweBody]
  refine (ZMod.natCast_eq_natCast_iff' _ _ _).mp ?_
  have hd : (List.zipWith (fun a s => a * s)
      (lweMask W maskS mc key.length) key).sum % 2 ^ W ≤ 2 ^ W :=
    le_of_lt (Nat.mod_lt _ hn)
  push_cast [ZMod.natCast_mod, Nat.cast_sub hd]
  have h0 : ((2 : ZMod (2 ^ W))) ^ W = 0 := by
    have h1 := ZMod.natCast_self (2 ^ W)
    push_cast at h1
    exact h1
  rw [h0]
  ring

/-- Length of a modelled ciphertext-list encryption. -/
theorem encryptLweList_length (W : Nat) (key : List Nat)
    (maskS noiseS : Nat → Nat) :
    ∀ pts mc nc,
      (encryptLweList W key maskS noiseS pts mc nc).length =
        pts.length := by
  intro pts
  induction pts with
  | nil => intro mc nc; rfl
  | cons pt rest ih =>
    intro mc nc
    simp only [encryptLweList, List.length_cons, ih]

/-- Entry `j` of a modelled ciphertext-list encryption. -/
theorem encryptLweList_getD (W : Nat) (key : List Nat)
    (maskS noiseS : Nat → Nat) :
    ∀ pts mc nc j, j < pts.length →
      (encryptLweList W key maskS noiseS pts mc nc).getD j [] =
        lweEncrypt W key maskS noiseS (mc + j * key.length) (nc + j)
          (pts.getD j 0) := by
  intro pts
  induction pts with
  | nil => intro mc nc j h; simp at h
  | cons pt rest ih =>
    intro mc nc j h
    cases j with
    | zero => simp [encryptLweList]
    | succ j' =>
      simp only [encryptLweList, List.getD_cons_succ]
      rw [ih _ _ j' (by simpa using h)]
      have e1 : mc + key.length + j' * key.length =
          mc + (j' + 1) * key.length := by ring
      have e2 : nc + 1 + j' = nc + (j' + 1) := by omega
      rw [e1, e2]

/-- The plaintext buffer has one entry per decomposition level. -/
theorem kskPlaintexts_length (W b l elem : Nat) :
    (kskPlaintexts W b l elem).length = l := by
  simp [kskPlaintexts]

/-- Entry `j` of the plaintext buffer is the level-`(j+1)` summand. -/
theorem kskPlaintexts_getD (W b l elem j : Nat) (h : j < l) :
    (kskPlaintexts W b l elem).getD j 0 =
      toRecompositionSummand W b (j + 1) elem := by
  simp [kskPlaintexts, List.getD, List.getElem?_map, List.getElem?_range h]

/-- One keyswitch key block per input key element. -/
theorem genKskBlocks_length (W b l : Nat) (outKey : List Nat)
    (maskS noiseS : Nat → Nat) :
    ∀ inK mc nc,
      (genKskBlocks W b l outKey maskS noiseS inK mc nc).length =
        inK.length := by
  intro inK
  induction inK with
  | nil => intro mc nc; rfl
  | cons e rest ih =>
    intro mc nc
    simp only [genKskBlocks, List.length_cons, ih]

/-- Every keyswitch key block holds `level_count` ciphertexts. -/
theorem genKskBlocks_block_length (W b l : Nat) (outKey : List Nat)
    (maskS noiseS : Nat → Nat) :
    ∀ inK mc nc blk,
      blk ∈ genKskBlocks W b l outKey maskS noiseS inK mc nc →
        blk.length = l := by
  intro inK
  induction inK with
  | nil => intro mc nc blk h; simp [genKskBlocks] at h
  | cons e rest ih =>
    intro mc nc blk h
    simp only [genKskBlocks, List.mem_cons] at h
    rcases h with h | h
    · subst h
      rw [encryptLweList_length, kskPlaintexts_length]
    · exact ih _ _ _ h

/-- Block `i` of the generated keyswitch key. -/
theorem genKskBlocks_getD (W b l : Nat) (outKey : List Nat)
    (maskS noiseS : Nat → Nat) :
    ∀ inK mc nc i, i < inK.length →
      (genKskBlocks W b l outKey maskS noiseS inK mc nc).getD i [] =
        encryptLweList W outKey maskS noiseS
          (kskPlaintexts W b l (inK.getD i 0))
          (mc + i * (l * outKey.length)) (nc + i * l) := by
  intro inK
  induction inK with
  | nil => intro mc nc i h; simp at h
  | cons e rest ih =>
    intro mc nc i h
    cases i with
    | zero => simp [genKskBlocks]
    | succ i' =>
      simp only [genKskBlocks, List.getD_cons_succ]
      rw [ih _ _ i' (by simpa using h)]
      have e1 : mc + l * outKey.length + i' * (l * outKey.length) =
          mc + (i' + 1) * (l * outKey.length) := by ring
      have e2 : nc + l + i' * l = nc + (i' + 1) * l := by ring
      rw [e1, e2]

/-- Claim C2: with matching declared dimensions,
`generate_lwe_keyswitch_key` fills one block per input key element;
block `i` holds `level_count` LWE ciphertexts under the output key, and
the ciphertext at level `j` encrypts `input_key[i] << (W - j*base_log)`
(its decryption is that scaled copy plus the drawn noise). -/
theorem generate_lwe_keyswitch_key_correct (W b l declIn declOut : Nat)
    (inKey outKey : List Nat) (maskS noiseS : Nat → Nat)
    (h1 : declIn = inKey.length) (h2 : declOut = outKey.length) :
    ∃ K, generateLweKeyswitchKey W b l declIn declOut inKey outKey
        maskS noiseS = some K ∧
      K.length = inKey.length ∧
      (∀ blk ∈ K, blk.length = l) ∧
      ∀ i j, i < inKey.length → j < l →
        (K.getD i []).getD j [] =
          lweEncrypt W outKey maskS noiseS ((i * l + j) * outKey.length)
            (i * l + j)
            (toRecompositionSummand W b (j + 1) (inKey.getD i 0)) ∧
        lweDecrypt W outKey ((K.getD i []).getD j []) =
          (inKey.getD i 0 * 2 ^ (W - b * (j + 1)) + noiseS (i * l + j))
            % 2 ^ W := by
  subst h1 h2
  refine ⟨genKskBlocks W b l outKey maskS noiseS inKey 0 0, ?_,
    genKskBlocks_length W b l outKey maskS noiseS inKey 0 0,
    fun blk hm =>
      genKskBlocks_block_length W b l outKey maskS noiseS inKey 0 0 blk hm,
    ?_⟩
  · simp [generateLweKeyswitchKey]
  · intro i j hi hj
    have hct : ((genKskBlocks W b l outKey maskS noiseS inKey 0 0).getD
        i []).getD j [] =
        lweEncrypt W outKey maskS noiseS ((i * l + j) * outKey.length)
          (i * l + j)
          (toRecompositionSummand W b (j + 1) (inKey.getD i 0)) := by
      rw [genKskBlocks_getD W b l outKey maskS noiseS inKey 0 0 i hi,
        encryptLweList_getD W outKey maskS noiseS _ _ _ j
          (by rw [kskPlaintexts_length]; exact hj),
        kskPlaintexts_getD W b l _ j hj]
      have e1 : 0 + i * (l * outKey.length) + j * outKey.length =
          (i * l + j) * outKey.length := by ring
      have e2 : 0 + i * l + j = i * l + j := by ring
      rw [e1, e2]
    refine ⟨hct, ?_⟩
    rw [hct, lweDecrypt_lweEncrypt]
    simp only [toRecompositionSummand]
    exact (Nat.add_mod _ _ _).symm

/-- Witness for `generate_lwe_keyswitch_key_correct`. -/
theorem generate_lwe_keyswitch_key_correct_witness :
    2 = [1, 2].length ∧ 1 = [3].length ∧
      ∃ K, generateLweKeyswitchKey 4 1 2 2 1 [1, 2] [3]
          (fun k => k) (fun k => k + 5) = some K ∧
        K.length = [1, 2].length ∧
        (∀ blk ∈ K, blk.length = 2) ∧
        ∀ i j, i < [1, 2].length → j < 2 →
          (K.getD i []).getD j [] =
            lweEncrypt 4 [3] (fun k => k) (fun k => k + 5)
              ((i * 2 + j) * [3].length) (i * 2 + j)
              (toRecompositionSummand 4 1 (j + 1) ([1, 2].getD i 0)) ∧
          lweDecrypt 4 [3] ((K.getD i []).getD j []) =
            ([1, 2].getD i 0 * 2 ^ (4 - 1 * (j + 1)) +
              (fun k => k + 5) (i * 2 + j)) % 2 ^ 4 :=
  ⟨by decide, by decide,
    generate_lwe_keyswitch_key_correct 4 1 2 2 1 [1, 2] [3]
      (fun k => k) (fun k => k + 5) (by decide) (by decide)⟩

/-- Decompressing one seeded block regenerates the direct block. -/
theorem decompressBlock_encryptSeededList (W : Nat) (key : List Nat)
    (maskS noiseS : Nat → Nat) :
    ∀ pts mc nc,
      decompressBlock W key.length maskS
        (encryptSeededList W key maskS noiseS pts mc nc) mc =
      encryptLweList W key maskS noiseS pts mc nc := by
  intro pts
  induction pts with
  | nil => intro mc nc; rfl
  | cons pt rest ih =>
    intro mc nc
    simp only [encryptSeededList, decompressBlock, encryptLweList,
      lweEncrypt]
    rw [ih]

/-- Length of a seeded block. -/
theorem encryptSeededList_length (W : Nat) (key : List Nat)
    (maskS noiseS : Nat → Nat) :
    ∀ pts mc nc,
      (encryptSeededList W key maskS noiseS pts mc nc).length =
        pts.length := by
  intro pts
  induction pts with
  | nil => intro mc nc; rfl
  | cons pt rest ih =>
    intro mc nc
    simp only [encryptSeededList, List.length_cons, ih]

/-- Decompressing all seeded blocks regenerates the direct key. -/
theorem decompressBlocks_genSeededKskBlocks (W b l : Nat)
    (outKey : List Nat) (maskS noiseS : Nat → Nat) :
    ∀ inK mc nc,
      decompressBlocks W outKey.length maskS
        (genSeededKskBlocks W b l outKey maskS noiseS inK mc nc) mc =
      genKskBlocks W b l outKey maskS noiseS inK mc nc := by
  intro inK
  induction inK with
  | nil => intro mc nc; rfl
  | cons e rest ih =>
    intro mc nc
    simp only [genSeededKskBlocks, genKskBlocks, decompressBlocks]
    rw [decompressBlock_encryptSeededList, encryptSeededList_length,
      kskPlaintexts_length, ih]

/-- Claim C3: generating an LWE keyswitch key directly and generating a
seeded key from the same seed material (the same mask and noise
streams) and decompressing yield identical keys, for every secret-key
pair, every scalar width and every pair of streams. -/
theorem seeded_unseeded_ksk_equivalence (W b l declIn declOut : Nat)
    (inKey outKey : List Nat) (maskS noiseS : Nat → Nat) :
    decompressSeededLweKeyswitchKey W outKey.length maskS
      (generateSeededLweKeyswitchKey W b l declIn declOut inKey outKey
        maskS noiseS) =
    generateLweKeyswitchKey W b l declIn declOut inKey outKey
      maskS noiseS := by
  simp only [generateSeededLweKeyswitchKey, generateLweKeyswitchKey,
    decompressSeededLweKeyswitchKey]
  split
  · simp only [Option.map_some']
    exact congrArg some
      (decompressBlocks_genSeededKskBlocks W b l outKey maskS noiseS
        inKey 0 0)
  · rfl

/-- `zipUpdate` keeps the length of the updated buffer. -/
theorem zipUpdate_length {α β : Type} (f : α → β → α) :
    ∀ (base : List α) (upd : List β),
      (zipUpdate f base upd).length = base.length := by
  intro base
  induction base with
  | nil => intro upd; cases upd <;> rfl
  | cons bh bt ih =>
    intro upd
    cases upd with
    | nil => rfl
    | cons uh ut => simp only [zipUpdate, List.length_cons, ih]

/-- On a buffer no longer than the update list, `zipUpdate` is
`zipWith`. -/
theorem zipUpdate_eq_zipWith {α β : Type} (f : α → β → α) :
    ∀ (base : List α) (upd : List β), base.length ≤ upd.length →
      zipUpdate f base upd = List.zipWith f base upd := by
  intro base
  induction base with
  | nil => intro upd _; cases upd <;> rfl
  | cons bh bt ih =>
    intro upd h
    cases upd with
    | nil => simp at h
    | cons uh ut =>
      simp only [zipUpdate, List.zipWith_cons_cons]
      rw [ih ut (by simpa using h)]

/-- Entries produced by an equal-length `zipUpdate` satisfy any bound
the update function guarantees. -/
theorem zipUpdate_mem_lt (M : Nat) (op : Nat → Nat → Nat)
    (hop : ∀ x y, op x y < M) :
    ∀ (a b : List Nat), a.length = b.length →
      ∀ x ∈ zipUpdate op a b, x < M := by
  intro a
  induction a with
  | nil => intro b _ x hx; cases b <;> simp [zipUpdate] at hx
  | cons ah at' ih =>
    intro b hlen x hx
    cases b with
    | nil => simp at hlen
    | cons bh bt =>
      simp only [zipUpdate, List.mem_cons] at hx
      rcases hx with hx | hx
      · subst hx; exact hop ah bh
      · exact ih bt (by simpa using hlen) x hx

/-- Adding a polynomial of in-range coefficients into a zero buffer of
its own length leaves it unchanged. -/
theorem polyAddAssignW_zeroPoly (W : Nat) :
    ∀ p : List Nat, (∀ c ∈ p, c < 2 ^ W) →
      polyAddAssignW W (zeroPoly p.length) p = p := by
  intro p
  induction p with
  | nil => intro _; rfl
  | cons a t ih =>
    intro hb
    simp only [zeroPoly, List.length_cons, List.replicate_succ,
      polyAddAssignW, zipUpdate]
    congr 1
    · rw [Nat.zero_add]
      exact Nat.mod_eq_of_lt (hb a (List.mem_cons_self a t))
    · have htail := ih (fun c hc => hb c (List.mem_cons_of_mem a hc))
      simp only [polyAddAssignW, zeroPoly] at htail
      exact htail

/-- A ciphertext of `gs` polynomials of size `N`, zero-filled in
place, is the fresh zero ciphertext. -/
theorem map_const_zero_ct (gs N : Nat) :
    ∀ c : List (List Nat), c.length = gs →
      (∀ p ∈ c, p.length = N) →
      c.map (fun p => p.map (fun _ => 0)) = freshCt gs N := by
  intro c
  induction c generalizing gs with
  | nil => intro h _; subst h; rfl
  | cons p t ih =>
    intro h hp
    subst h
    simp only [List.map_cons, freshCt, List.length_cons,
      List.replicate_succ]
    congr 1
    · rw [List.map_const', hp p (List.mem_cons_self p t)]
      rfl
    · have htail :=
        ih t.length rfl (fun p' hp' => hp p' (List.mem_cons_of_mem p hp'))
      simp only [freshCt] at htail
      exact htail

/-- Polynomials produced by a coefficientwise ciphertext operation
have the common size. -/
theorem zipWith_poly_length (N : Nat) (op : Nat → Nat → Nat) :
    ∀ (c0 c1 : List (List Nat)),
      (∀ p ∈ c0, p.length = N) → (∀ p ∈ c1, p.length = N) →
      ∀ p ∈ List.zipWith (fun p0 p1 => List.zipWith op p0 p1) c0 c1,
        p.length = N := by
  intro c0
  induction c0 with
  | nil => intro c1 _ _ p hp; simp at hp
  | cons p0 t0 ih =>
    intro c1 h0 h1 p hp
    cases c1 with
    | nil => simp at hp
    | cons p1 t1 =>
      simp only [List.zipWith_cons_cons, List.mem_cons] at hp
      rcases hp with hp | hp
      · subst hp
        rw [List.length_zipWith, h0 p0 (List.mem_cons_self p0 t0),
          h1 p1 (List.mem_cons_self p1 t1), Nat.min_self]
      · exact ih t1 (fun p' h' => h0 p' (List.mem_cons_of_mem p0 h'))
          (fun p' h' => h1 p' (List.mem_cons_of_mem p1 h')) p hp

/-- Coefficients produced by a coefficientwise ciphertext operation
satisfy the bound the operation guarantees. -/
theorem zipWith_poly_coeff_lt (M : Nat) (op : Nat → Nat → Nat)
    (hop : ∀ x y, op x y < M) :
    ∀ (c0 c1 : List (List Nat)),
      ∀ p ∈ List.zipWith (fun p0 p1 => List.zipWith op p0 p1) c0 c1,
        ∀ x ∈ p, x < M := by
  intro c0
  induction c0 with
  | nil => intro c1 p hp; simp at hp
  | cons p0 t0 ih =>
    intro c1 p hp
    cases c1 with
    | nil => simp at hp
    | cons p1 t1 =>
      simp only [List.zipWith_cons_cons, List.mem_cons] at hp
      rcases hp with hp | hp
      · subst hp
        intro x hx
        have h2 : ∀ b a : List Nat, ∀ x ∈ List.zipWith op a b, x < M := by
          intro b
          induction b with
          | nil => intro a x hx; simp at hx
          | cons bh bt ihb =>
            intro a x hx
            cases a with
            | nil => simp at hx
            | cons ah at' =>
              simp only [List.zipWith_cons_cons, List.mem_cons] at hx
              rcases hx with hx | hx
              · subst hx; exact hop ah bh
              · exact ihb at' x hx
        exact h2 p1 p0 x hx
      · exact ih t1 p hp

/-- Building `ct_plus`/`ct_minus` in a fresh zero ciphertext — native
add of the first operand into the zero buffer, then the custom-mod
operation with the second — is the plain coefficientwise operation on
the two operands, when shapes agree and the first operand's
coefficients are in scalar range. -/
theorem zipUpdate_fresh_stage (N W : Nat) (op : Nat → Nat → Nat) :
    ∀ (c0 c1 : List (List Nat)), c0.length = c1.length →
      (∀ p ∈ c0, p.length = N ∧ ∀ x ∈ p, x < 2 ^ W) →
      (∀ p ∈ c1, p.length = N) →
      zipUpdate (fun z pr => zipUpdate op (polyAddAssignW W z pr.1) pr.2)
        (freshCt c0.length N) (c0.zip c1) =
      List.zipWith (fun p0 p1 => List.zipWith op p0 p1) c0 c1 := by
  intro c0
  induction c0 with
  | nil => intro c1 _ _ _; rfl
  | cons p0 t0 ih =>
    intro c1 hlen h0 h1
    cases c1 with
    | nil => simp at hlen
    | cons p1 t1 =>
      simp only [freshCt, List.length_cons, List.replicate_succ,
        List.zip_cons_cons, zipUpdate, List.zipWith_cons_cons]
      obtain ⟨hl0, hb0⟩ := h0 p0 (List.mem_cons_self p0 t0)
      congr 1
      · have hz : polyAddAssignW W (zeroPoly N) p0 = p0 := by
          rw [← hl0]
          exact polyAddAssignW_zeroPoly W p0 hb0
        rw [hz]
        exact zipUpdate_eq_zipWith op p0 p1
          (by rw [hl0, h1 p1 (List.mem_cons_self p1 t1)])
      · have htail := ih t1 (by simpa using hlen)
          (fun p h => h0 p (List.mem_cons_of_mem p0 h))
          (fun p h => h1 p (List.mem_cons_of_mem p1 h))
        simpa only [freshCt] using htail

/-- Folding `ct_plus + ks_out` into the zero-filled slot `i` — a
custom-mod addition followed by a native add into the zeroed buffer —
is the plain coefficientwise modular sum, when shapes agree and
`q ≤ 2^W`. -/
theorem zipUpdate_fold_stage (N W q : Nat) (hq : 0 < q)
    (hqW : q ≤ 2 ^ W) :
    ∀ (z0 c0 c1 : List (List Nat)),
      z0.length = c0.length → c0.length = c1.length →
      (∀ p ∈ z0, p.length = N) →
      (∀ p ∈ c0, p.length = N) → (∀ p ∈ c1, p.length = N) →
      zipUpdate
        (fun z pr => polyAddAssignW W z
          (zipUpdate (fun x y => (x + y) % q) pr.1 pr.2))
        (z0.map (fun p => p.map (fun _ => 0))) (c0.zip c1) =
      ctAddQ q c0 c1 := by
  intro z0
  induction z0 with
  | nil =>
    intro c0 c1 hz hlen _ _ _
    cases c0 with
    | nil => rfl
    | cons p0 t0 => simp at hz
  | cons zp zt ih =>
    intro c0 c1 hz hlen hzp h0 h1
    cases c0 with
    | nil => simp at hz
    | cons p0 t0 =>
      cases c1 with
      | nil => simp at hlen
      | cons p1 t1 =>
        simp only [List.map_cons, List.zip_cons_cons, zipUpdate, ctAddQ,
          List.zipWith_cons_cons]
        congr 1
        · have hx : (zipUpdate (fun x y => (x + y) % q) p0 p1).length =
              p0.length :=
            zipUpdate_length _ p0 p1
          have hxb : ∀ x ∈ zipUpdate (fun x y => (x + y) % q) p0 p1,
              x < 2 ^ W := by
            intro x hxm
            refine lt_of_lt_of_le ?_ hqW
            refine zipUpdate_mem_lt q _ (fun a c => Nat.mod_lt _ hq)
              p0 p1 ?_ x hxm
            rw [h0 p0 (List.mem_cons_self p0 t0),
              h1 p1 (List.mem_cons_self p1 t1)]
          have hzz : zp.map (fun _ => 0) = zeroPoly N := by
            rw [List.map_const', hzp zp (List.mem_cons_self zp zt)]
            rfl
          rw [hzz]
          have hN : N =
              (zipUpdate (fun x y => (x + y) % q) p0 p1).length := by
            rw [hx, h0 p0 (List.mem_cons_self p0 t0)]
          rw [hN, polyAddAssignW_zeroPoly W _ hxb]
          exact zipUpdate_eq_zipWith _ p0 p1
            (by rw [h0 p0 (List.mem_cons_self p0 t0),
              h1 p1 (List.mem_cons_self p1 t1)])
        · have htail := ih t0 t1 (by simpa using hz)
            (by simpa using hlen)
            (fun p h => hzp p (List.mem_cons_of_mem zp h))
            (fun p h => h0 p (List.mem_cons_of_mem p0 h))
            (fun p h => h1 p (List.mem_cons_of_mem p1 h))
          simpa only [ctAddQ] using htail

/-- One butterfly pair of the trace-packing keyswitch behaves exactly
as the claim describes it. -/
theorem tpPairStep_eq_spec (N W q gs : Nat)
    (rot auto : Nat → List Nat → List Nat)
    (ks : Nat → List (List Nat) → List (List Nat))
    (hq : 0 < q) (hq1 : q + 1 < 2 ^ W)
    (hrot : ∀ d p, (rot d p).length = p.length)
    (hauto : ∀ e p, (auto e p).length = p.length)
    (hks : ∀ st c, c.length = gs → (∀ p ∈ c, p.length = N) →
      (ks st c).length = gs ∧ ∀ p ∈ ks st c, p.length = N)
    (l i : Nat) (slots : List (List (List Nat)))
    (h0len : (slots.getD i []).length = gs)
    (h0p : ∀ p ∈ slots.getD i [], p.length = N ∧ ∀ x ∈ p, x < 2 ^ W)
    (h1len : (slots.getD (N / 2 ^ (l + 1) + i) []).length = gs)
    (h1p : ∀ p ∈ slots.getD (N / 2 ^ (l + 1) + i) [], p.length = N) :
    tpPairStep N W q gs rot auto ks l i slots =
      tpPairStepSpec N q rot auto ks l i slots := by
  have hqW : q ≤ 2 ^ W := le_of_lt (Nat.lt_of_succ_lt hq1)
  have hinv : (q % 2 ^ W + 1) % 2 ^ W / 2 = (q + 1) / 2 := by
    rw [Nat.mod_eq_of_lt (Nat.lt_of_succ_lt hq1), Nat.mod_eq_of_lt hq1]
  simp only [tpPairStep, tpPairStepSpec]
  rw [hinv]
  by_cases hz : (glweAllZero (slots.getD i []) &&
      glweAllZero (slots.getD (N / 2 ^ (l + 1) + i) [])) = true
  · rw [if_pos hz, if_pos hz]
  · rw [if_neg hz, if_neg hz]
    set ct0 := slots.getD i [] with hct0
    set ct1 := slots.getD (N / 2 ^ (l + 1) + i) [] with hct1
    set rot1 := ct1.map (rot (N / 2 ^ (l + 1))) with hrot1
    have hrot1len : rot1.length = gs := by
      rw [hrot1, List.length_map, h1len]
    have hrot1p : ∀ p ∈ rot1, p.length = N := by
      intro p hp
      rw [hrot1] at hp
      obtain ⟨p', hp', rfl⟩ := List.mem_map.mp hp
      rw [hrot _ p']
      exact h1p p' hp'
    have hlen01 : ct0.length = rot1.length := by rw [h0len, hrot1len]
    simp only [polyAddAssignQ, polySubAssignQ, ctAddQ, ctSubQ]
    rw [← h0len]
    rw [zipUpdate_fresh_stage N W (fun x y => (x + y) % q) ct0 rot1
      hlen01 h0p hrot1p]
    rw [zipUpdate_fresh_stage N W (fun x y => (x + (q - y % q)) % q)
      ct0 rot1 hlen01 h0p hrot1p]
    set X := (List.zipWith (fun p0 p1 =>
      List.zipWith (fun x y => (x + y) % q) p0 p1) ct0 rot1).map
        (polyScalarMulQ q ((q + 1) / 2)) with hX
    set D := (List.zipWith (fun p0 p1 =>
      List.zipWith (fun x y => (x + (q - y % q)) % q) p0 p1) ct0
        rot1).map (polyScalarMulQ q ((q + 1) / 2)) with hD
    have hXlen : X.length = ct0.length := by
      rw [hX, List.length_map, List.length_zipWith, ← hlen01,
        Nat.min_self]
    have hXp : ∀ p ∈ X, p.length = N := by
      intro p hp
      rw [hX] at hp
      obtain ⟨p', hp', rfl⟩ := List.mem_map.mp hp
      rw [polyScalarMulQ, List.length_map]
      exact zipWith_poly_length N _ ct0 rot1
        (fun p h => (h0p p h).1) hrot1p p' hp'
    have hDA : ((D.map (auto (2 ^ (l + 1) + 1))).length = gs) ∧
        ∀ p ∈ D.map (auto (2 ^ (l + 1) + 1)), p.length = N := by
      constructor
      · rw [List.length_map, hD, List.length_map, List.length_zipWith,
          ← hlen01, Nat.min_self, h0len]
      · intro p hp
        obtain ⟨p', hp', rfl⟩ := List.mem_map.mp hp
        rw [hauto]
        rw [hD] at hp'
        obtain ⟨p'', hp'', rfl⟩ := List.mem_map.mp hp'
        rw [polyScalarMulQ, List.length_map]
        exact zipWith_poly_length N _ ct0 rot1
          (fun p h => (h0p p h).1) hrot1p p'' hp''
    obtain ⟨hKlen, hKp⟩ := hks l (D.map (auto (2 ^ (l + 1) + 1)))
      hDA.1 hDA.2
    rw [zipUpdate_fold_stage N W q hq hqW ct0 X
      (ks l (D.map (auto (2 ^ (l + 1) + 1)))) hXlen.symm
      (by rw [hXlen, h0len, hKlen]) (fun p h => (h0p p h).1) hXp hKp]
    simp only [ctAddQ]

/-- Native-adding a shaped ciphertext into a fresh zero ciphertext
reproduces it. -/
theorem zipUpdate_addW_fresh (W N : Nat) :
    ∀ (res : List (List Nat)) (gs : Nat), res.length = gs →
      (∀ p ∈ res, p.length = N ∧ ∀ x ∈ p, x < 2 ^ W) →
      zipUpdate (fun z p => polyAddAssignW W z p) (freshCt gs N) res =
        res := by
  intro res
  induction res with
  | nil => intro gs h _; subst h; rfl
  | cons p t ih =>
    intro gs h hp
    subst h
    simp only [List.length_cons, freshCt, List.replicate_succ, zipUpdate]
    obtain ⟨hl, hb⟩ := hp p (List.mem_cons_self p t)
    congr 1
    · rw [← hl]
      exact polyAddAssignW_zeroPoly W p hb
    · have htail := ih t.length rfl
        (fun p' h' => hp p' (List.mem_cons_of_mem p h'))
      simpa only [freshCt] using htail

/-- The final write-back copies slot 0 into the output verbatim. -/
theorem tpFinalCopy_eq (W N gs : Nat) :
    ∀ outData res, outData.length = gs →
      (∀ p ∈ outData, p.length = N) → res.length = gs →
      (∀ p ∈ res, p.length = N ∧ ∀ x ∈ p, x < 2 ^ W) →
      tpFinalCopy W outData res = res := by
  intro outData res h1 h2 h3 h4
  simp only [tpFinalCopy]
  rw [map_const_zero_ct gs N outData h1 h2]
  exact zipUpdate_addW_fresh W N res gs h3 h4

/-- Claim C4, as holding on the code: when `q + 1` fits in the scalar
width (so the halving scalar `(cast(q)+1)/2` does not wrap), in every
butterfly round `l < log2(N)` and for every slot pair
`(i, i + N/2^(l+1))` with `i < N/2^(l+1)`, the loop body of the
trace-packing keyswitch is exactly the claimed transformation — skip
when both slots are zero, otherwise rotate the second slot by
`X^(N/2^(l+1))`, halve the sum and the difference by `(q+1)/2 mod q`,
automorph the difference half by `X → X^(2^(l+1)+1)`, keyswitch it
under the stage-`l` key and fold the result into slot `i` — and after
the rounds slot 0 is copied verbatim into the output.  At
`q = 2^W - 1` the halving scalar wraps to 0 and the claimed
description fails (see the counterexample). -/
theorem trace_packing_butterfly (N W q gs : Nat)
    (rot auto : Nat → List Nat → List Nat)
    (ks : Nat → List (List Nat) → List (List Nat))
    (hq : 0 < q) (hq1 : q + 1 < 2 ^ W)
    (hrot : ∀ d p, (rot d p).length = p.length)
    (hauto : ∀ e p, (auto e p).length = p.length)
    (hks : ∀ st c, c.length = gs → (∀ p ∈ c, p.length = N) →
      (ks st c).length = gs ∧ ∀ p ∈ ks st c, p.length = N) :
    (∀ l i slots, l < Nat.log2 N → i < N / 2 ^ (l + 1) →
      (slots.getD i []).length = gs →
      (∀ p ∈ slots.getD i [], p.length = N ∧ ∀ x ∈ p, x < 2 ^ W) →
      (slots.getD (N / 2 ^ (l + 1) + i) []).length = gs →
      (∀ p ∈ slots.getD (N / 2 ^ (l + 1) + i) [], p.length = N) →
      tpPairStep N W q gs rot auto ks l i slots =
        tpPairStepSpec N q rot auto ks l i slots) ∧
    (∀ outData res, outData.length = gs →
      (∀ p ∈ outData, p.length = N) → res.length = gs →
      (∀ p ∈ res, p.length = N ∧ ∀ x ∈ p, x < 2 ^ W) →
      tpFinalCopy W outData res = res) :=
  ⟨fun l i slots _ _ h0len h0p h1len h1p =>
    tpPairStep_eq_spec N W q gs rot auto ks hq hq1 hrot hauto hks l i
      slots h0len h0p h1len h1p,
   fun outData res h1 h2 h3 h4 => tpFinalCopy_eq W N gs outData res
     h1 h2 h3 h4⟩

/-- Witness for `trace_packing_butterfly`. -/
theorem trace_packing_butterfly_witness :
    0 < 3 ∧ 3 + 1 < 2 ^ 3 ∧
    tpPairStep 2 3 3 1 (fun _ p => p) (fun _ p => p) (fun _ c => c) 0 0
        [[[1, 2]], [[0, 1]]] =
      tpPairStepSpec 2 3 (fun _ p => p) (fun _ p => p) (fun _ c => c)
        0 0 [[[1, 2]], [[0, 1]]] ∧
    tpFinalCopy 3 [[2, 2]] [[1, 2]] = [[1, 2]] :=
  ⟨by decide, by decide,
   (trace_packing_butterfly 2 3 3 1 (fun _ p => p) (fun _ p => p)
      (fun _ c => c) (by decide) (by decide) (fun d p => rfl)
      (fun e p => rfl) (fun st c h1 h2 => ⟨h1, h2⟩)).1 0 0
      [[[1, 2]], [[0, 1]]]
      (by rw [show (2 : Nat) = 2 ^ 1 from rfl, Nat.log2_two_pow]
          norm_num) (by decide)
      (by decide) (by decide) (by decide) (by decide),
   (trace_packing_butterfly 2 3 3 1 (fun _ p => p) (fun _ p => p)
      (fun _ c => c) (by decide) (by decide) (fun d p => rfl)
      (fun e p => rfl) (fun st c h1 h2 => ⟨h1, h2⟩)).2 [[2, 2]]
      [[1, 2]] (by decide) (by decide) (by decide) (by decide)⟩

/-- Claim C4 counterexample: at the odd custom modulus `q = 2^W - 1`
(here `W = 2`, `q = 3`, a valid modulus that passes every assertion of
the function) the halving scalar `(Scalar::cast_from(q) + ONE) / TWO`
of lines 283-285 wraps to 0, so the slot pair is not "multiplied by
`(q+1)/2` modulo `q`" as the claim states: the code-side pair step
differs from the claim-side description on in-range slots. -/
theorem trace_packing_butterfly_counterexample :
    tpPairStep 2 2 3 1 (fun _ p => p) (fun _ p => p) (fun _ c => c) 0 0
        [[[1, 2]], [[0, 1]]] ≠
      tpPairStepSpec 2 3 (fun _ p => p) (fun _ p => p) (fun _ c => c)
        0 0 [[[1, 2]], [[0, 1]]] := by decide

/-- Claim C5: the trace-packing keyswitch aborts unless all of the
listed preconditions hold, and under them no assertion fires: the
input count is at most `N`, the indices vector has one entry per input
ciphertext with every entry below `N`, the input LWE size, the output
polynomial size and the output GLWE size match the key's declared
sizes, the input, output and key moduli agree, and the custom modulus
is odd. -/
theorem trace_packing_assertions (W : Nat)
    (rot auto : Nat → List Nat → List Nat)
    (ks : Nat → List (List Nat) → List (List Nat))
    (tpksk : LweTracePackingKeyswitchKey) (N gsOut qOut : Nat)
    (outData : List (List Nat)) (lweSize qIn : Nat)
    (lweList : List (List Nat)) (indices : List Nat)
    (hqW : qIn < 2 ^ W) :
    (tracePackingKeyswitch W rot auto ks tpksk N gsOut qOut outData
      lweSize qIn lweList indices).isSome = true ↔
      (lweList.length ≤ N ∧ indices.length = lweList.length ∧
        (∀ x ∈ indices, x < N) ∧ lweSize = tpksk.input_lwe_size ∧
        N = tpksk.polynomial_size ∧ gsOut = tpksk.output_glwe_size ∧
        qIn = tpksk.ciphertext_modulus ∧
        qOut = tpksk.ciphertext_modulus ∧ qIn % 2 = 1) := by
  simp only [tracePackingKeyswitch]
  split
  · rename_i h
    constructor
    · intro _
      obtain ⟨h1, h2, h3, h4, h5, h6, h7, h8, h9⟩ := h
      rw [Nat.mod_eq_of_lt hqW] at h9
      exact ⟨h1, h2.symm, h4, h3, h5, h6, h7, h8, h9⟩
    · intro _
      rfl
  · rename_i h
    constructor
    · intro hs
      simp at hs
    · intro hc
      exfalso
      obtain ⟨h1, h2, h3, h4, h5, h6, h7, h8, h9⟩ := hc
      exact h ⟨h1, h2.symm, h4, h3, h5, h6, h7, h8,
        by rw [Nat.mod_eq_of_lt hqW]; exact h9⟩

/-- Witness for `trace_packing_assertions`. -/
theorem trace_packing_assertions_witness :
    5 < 2 ^ 3 ∧
      ((tracePackingKeyswitch 3 (fun _ p => p) (fun _ p => p)
          (fun _ c => c) ⟨3, 4, 2, 5⟩ 4 2 5 [[0, 0, 0, 0], [0, 0, 0, 0]]
          3 5 [[1, 2, 3], [4, 5, 6]] [0, 1]).isSome = true ↔
        ([[1, 2, 3], [4, 5, 6]].length ≤ 4 ∧
          [0, 1].length = [[1, 2, 3], [4, 5, 6]].length ∧
          (∀ x ∈ [0, 1], x < 4) ∧ 3 = 3 ∧ 4 = 4 ∧ 2 = 2 ∧ 5 = 5 ∧
          5 = 5 ∧ 5 % 2 = 1)) :=
  ⟨by decide,
    trace_packing_assertions 3 (fun _ p => p) (fun _ p => p)
      (fun _ c => c) ⟨3, 4, 2, 5⟩ 4 2 5
      [[0, 0, 0, 0], [0, 0, 0, 0]] 3 5 [[1, 2, 3], [4, 5, 6]] [0, 1]
      (by decide)⟩

/-- Claim C10: the trace-packing keyswitch never reads the initial
contents of the output buffer — for any two initial contents of the
declared shape, the result is identical. -/
theorem trace_packing_overwrites_output (W : Nat)
    (rot auto : Nat → List Nat → List Nat)
    (ks : Nat → List (List Nat) → List (List Nat))
    (tpksk : LweTracePackingKeyswitchKey) (N gsOut qOut : Nat)
    (lweSize qIn : Nat) (lweList : List (List Nat))
    (indices : List Nat) (out1 out2 : List (List Nat))
    (h1l : out1.length = gsOut) (h1p : ∀ p ∈ out1, p.length = N)
    (h2l : out2.length = gsOut) (h2p : ∀ p ∈ out2, p.length = N) :
    tracePackingKeyswitch W rot auto ks tpksk N gsOut qOut out1
        lweSize qIn lweList indices =
      tracePackingKeyswitch W rot auto ks tpksk N gsOut qOut out2
        lweSize qIn lweList indices := by
  simp only [tracePackingKeyswitch]
  split
  · refine congrArg some ?_
    simp only [tpFinalCopy]
    rw [map_const_zero_ct gsOut N out1 h1l h1p,
      map_const_zero_ct gsOut N out2 h2l h2p]
  · rfl

/-- Witness for `trace_packing_overwrites_output`. -/
theorem trace_packing_overwrites_output_witness :
    [[9, 9, 9, 9], [7, 7, 7, 7]].length = 2 ∧
      tracePackingKeyswitch 3 (fun _ p => p) (fun _ p => p)
          (fun _ c => c) ⟨3, 4, 2, 5⟩ 4 2 5 [[9, 9, 9, 9], [7, 7, 7, 7]]
          3 5 [[1, 2, 3], [4, 5, 6]] [0, 1] =
        tracePackingKeyswitch 3 (fun _ p => p) (fun _ p => p)
          (fun _ c => c) ⟨3, 4, 2, 5⟩ 4 2 5 [[0, 0, 0, 0], [0, 0, 0, 0]]
          3 5 [[1, 2, 3], [4, 5, 6]] [0, 1] :=
  ⟨by decide,
    trace_packing_overwrites_output 3 (fun _ p => p) (fun _ p => p)
      (fun _ c => c) ⟨3, 4, 2, 5⟩ 4 2 5 3 5 [[1, 2, 3], [4, 5, 6]]
      [0, 1] [[9, 9, 9, 9], [7, 7, 7, 7]] [[0, 0, 0, 0], [0, 0, 0, 0]]
      (by decide) (by decide) (by decide) (by decide)⟩

end TfheRs
